import Mathlib

/-
  Verification development for the mermaid-diagram-lens editor extension.

  The extension's document model is embedded shallowly: document text is a
  `List Char`, and the fenced-block extraction implemented in
  `src/extension.ts` / `src/previewPanel.ts` (`_extractMermaidCode`,
  `_extractMermaidCodeAtLine`) is translated into executable Lean functions
  that mirror the JavaScript regular expression

      /```mermaid[^\S\r\n]*(?:\r?\n)([\s\S]*?)(?:\r?\n)?```/g

  with its lazy capture group and greedy optional closing newline, together
  with JavaScript's `String.prototype.trim`, `JSON.stringify` on string
  arrays, and VS Code's `TextDocument.positionAt` line computation.
-/

/-- The backtick character (U+0060), written via its code point. -/
def backtick : Char := Char.ofNat 96

/-- The three-backtick fence that closes a mermaid block. -/
def fence : List Char := [backtick, backtick, backtick]

/-- The literal opener "```mermaid". -/
def mermaidOpen : List Char :=
  fence ++ ['m', 'e', 'r', 'm', 'a', 'i', 'd']

/-- JavaScript's whitespace class `\s` (WhiteSpace plus LineTerminator):
space, tab, LF, VT, FF, CR, NBSP and the Unicode space separators,
LS, PS, NNBSP, MMSP, ideographic space and the BOM. -/
def jsSpace (c : Char) : Bool :=
  c = ' ' || c = '\t' || c = '\n' || c = '\x0b' || c = '\x0c' || c = '\r' ||
  c = Char.ofNat 0xa0 || c = Char.ofNat 0x1680 ||
  (Char.ofNat 0x2000 ≤ c && c ≤ Char.ofNat 0x200a) ||
  c = Char.ofNat 0x2028 || c = Char.ofNat 0x2029 ||
  c = Char.ofNat 0x202f || c = Char.ofNat 0x205f ||
  c = Char.ofNat 0x3000 || c = Char.ofNat 0xfeff

/-- The regex character class `[^\S\r\n]`: a whitespace character that is
neither a carriage return nor a line feed (the run allowed between
"```mermaid" and the mandatory newline). -/
def fenceSpace (c : Char) : Bool :=
  jsSpace c && !(c = '\r') && !(c = '\n')

/-- Remove trailing JavaScript whitespace. -/
def trimEnd (l : List Char) : List Char :=
  (l.reverse.dropWhile jsSpace).reverse

/-- JavaScript `String.prototype.trim`: remove leading and trailing
whitespace (the class `\s`, which includes CR and LF). -/
def jsTrim (l : List Char) : List Char :=
  (trimEnd l).dropWhile jsSpace

/-- Strip an exact literal from the front of a list, returning the rest. -/
def dropLit : List Char → List Char → Option (List Char)
  | [], s => some s
  | _, [] => none
  | p :: ps, c :: cs => if c = p then dropLit ps cs else none

/-- One attempt of the closing pattern `(?:\r?\n)?``` ` at the current
position, honouring the greedy backtracking order of `\r?\n`:
first "\r\n```", then "\n```", then "```".  Returns the text after the
closing fence. -/
def tryClose (s : List Char) : Option (List Char) :=
  match dropLit ('\r' :: '\n' :: fence) s with
  | some r => some r
  | none =>
    match dropLit ('\n' :: fence) s with
    | some r => some r
    | none => dropLit fence s

/-- The lazy capture `([\s\S]*?)(?:\r?\n)?``` `: at each position, first try
to close, and only if that fails consume one more character into the
capture.  Returns (capture, text after the closing fence). -/
def matchBody : List Char → Option (List Char × List Char)
  | [] => (tryClose []).map (fun r => ([], r))
  | c :: s' =>
    match tryClose (c :: s') with
    | some r => some ([], r)
    | none => (matchBody s').map (fun p => (c :: p.1, p.2))

/-- Try to match the whole pattern anchored at the start of `s`:
the literal "```mermaid", a greedy run of `[^\S\r\n]`, a mandatory
`\r?\n`, then the lazy body and the closing fence.
Returns (captured body, text after the match). -/
def tryMatch (s : List Char) : Option (List Char × List Char) :=
  match dropLit mermaidOpen s with
  | none => none
  | some r1 =>
    match r1.dropWhile fenceSpace with
    | '\r' :: '\n' :: r3 => matchBody r3
    | '\n' :: r3 => matchBody r3
    | _ => none

/-- A regex match as produced by the global scan: start index, length of
`match[0]`, and the capture `match[1]`. -/
structure RMatch where
  idx : Nat
  len : Nat
  body : List Char
deriving DecidableEq, Repr

/-- Fuelled global scan: at each position try the anchored pattern; on a
match, emit it and resume after the match (as a JavaScript global regex
does via `lastIndex`); otherwise advance one character. -/
def scanAux : Nat → Nat → List Char → List RMatch
  | 0, _, _ => []
  | f + 1, off, s =>
    match tryMatch s with
    | some (b, r) =>
      { idx := off, len := s.length - r.length, body := b } ::
        scanAux f (off + (s.length - r.length)) r
    | none =>
      match s with
      | [] => []
      | _ :: s' => scanAux f (off + 1) s'

/-- All matches of the mermaid-block regex in `s`, with `off` the index of
the head of `s` in the whole document. -/
def scanAllFrom (off : Nat) (s : List Char) : List RMatch :=
  scanAux (s.length + 1) off s

section ScanLemmas

theorem dropLit_eq_some {p s r : List Char} :
    dropLit p s = some r ↔ s = p ++ r := by
  induction p generalizing s with
  | nil => simp [dropLit]
  | cons a p ih =>
    cases s with
    | nil => simp [dropLit]
    | cons c cs =>
      by_cases h : c = a
      · subst h
        simp only [dropLit, if_pos rfl, List.cons_append, List.cons.injEq,
          true_and]
        exact ih
      · simp [dropLit, h]

theorem dropLit_length {p s r : List Char} (h : dropLit p s = some r) :
    s.length = p.length + r.length := by
  rw [dropLit_eq_some] at h
  subst h
  simp [List.length_append]

theorem tryClose_length {s r : List Char} (h : tryClose s = some r) :
    r.length + 3 ≤ s.length := by
  unfold tryClose at h
  cases h1 : dropLit ('\r' :: '\n' :: fence) s with
  | some r1 =>
    rw [h1] at h
    cases h
    have := dropLit_length h1
    simp [fence] at this
    omega
  | none =>
    rw [h1] at h
    cases h2 : dropLit ('\n' :: fence) s with
    | some r2 =>
      rw [h2] at h
      cases h
      have := dropLit_length h2
      simp [fence] at this
      omega
    | none =>
      rw [h2] at h
      have := dropLit_length h
      simp [fence] at this
      omega

theorem matchBody_length {s : List Char} :
    ∀ {b r : List Char}, matchBody s = some (b, r) → r.length + 3 ≤ s.length := by
  induction s with
  | nil =>
    intro b r h
    simp only [matchBody] at h
    cases hc : tryClose [] with
    | some rc =>
      have := tryClose_length hc
      simp at this
    | none => rw [hc] at h; simp at h
  | cons c s' ih =>
    intro b r h
    simp only [matchBody] at h
    cases hc : tryClose (c :: s') with
    | some rc =>
      rw [hc] at h
      cases h
      have := tryClose_length hc
      simpa using this
    | none =>
      rw [hc] at h
      cases hm : matchBody s' with
      | none => rw [hm] at h; simp at h
      | some p =>
        rw [hm] at h
        simp only [Option.map_some, Option.some.injEq] at h
        obtain ⟨p1, p2⟩ := p
        have := ih hm
        cases h
        simp only [List.length_cons]
        omega

theorem dropWhileLenLe (p : Char → Bool) :
    ∀ l : List Char, (l.dropWhile p).length ≤ l.length := by
  intro l
  induction l with
  | nil => simp [List.dropWhile]
  | cons a t ih =>
    by_cases h : p a
    · simp only [List.dropWhile_cons, if_pos h, List.length_cons]
      omega
    · simp [List.dropWhile_cons, if_neg h]

theorem tryMatch_length {s b r : List Char} (h : tryMatch s = some (b, r)) :
    r.length < s.length := by
  unfold tryMatch at h
  split at h
  · exact absurd h (by simp)
  next r1 h1 =>
    have hl1 : s.length = 10 + r1.length := by
      have := dropLit_length h1
      simpa [mermaidOpen, fence] using this
    have hl2 : (r1.dropWhile fenceSpace).length ≤ r1.length :=
      dropWhileLenLe fenceSpace r1
    split at h
    next r3 h2 =>
      rw [h2] at hl2
      have := matchBody_length h
      simp only [List.length_cons] at hl2
      omega
    next r3 h2 h3 =>
      rw [h3] at hl2
      have := matchBody_length h
      simp only [List.length_cons] at hl2
      omega
    next => exact absurd h (by simp)

theorem scanAux_nil : ∀ (f off : Nat), scanAux f off [] = [] := by
  intro f off
  cases f with
  | zero => rfl
  | succ f => rfl

theorem scanAux_fuel_irrel :
    ∀ n f g off (s : List Char), s.length ≤ n → s.length < f → s.length < g →
      scanAux f off s = scanAux g off s := by
  intro n
  induction n with
  | zero =>
    intro f g off s hn hf hg
    have hs : s = [] := by
      cases s with
      | nil => rfl
      | cons a t => simp at hn
    subst hs
    rw [scanAux_nil, scanAux_nil]
  | succ n ih =>
    intro f g off s hn hf hg
    obtain ⟨f', rfl⟩ : ∃ f', f = f' + 1 := ⟨f - 1, by omega⟩
    obtain ⟨g', rfl⟩ : ∃ g', g = g' + 1 := ⟨g - 1, by omega⟩
    simp only [scanAux]
    cases hm : tryMatch s with
    | some p =>
      obtain ⟨b, r⟩ := p
      have hr := tryMatch_length hm
      exact congrArg (List.cons { idx := off, len := s.length - r.length, body := b })
        (ih f' g' (off + (s.length - r.length)) r (by omega) (by omega) (by omega))
    | none =>
      cases s with
      | nil => rfl
      | cons c s' =>
        simp only [List.length_cons] at hn hf hg
        exact ih f' g' (off + 1) s' (by omega) (by omega) (by omega)

/-- Unfolding equation for `scanAllFrom`, independent of the fuel. -/
theorem scanAllFrom_eq (off : Nat) (s : List Char) :
    scanAllFrom off s =
      match tryMatch s with
      | some (b, r) =>
        { idx := off, len := s.length - r.length, body := b } ::
          scanAllFrom (off + (s.length - r.length)) r
      | none =>
        match s with
        | [] => []
        | _ :: s' => scanAllFrom (off + 1) s' := by
  show scanAux (s.length + 1) off s = _
  simp only [scanAux]
  cases hm : tryMatch s with
  | some p =>
    obtain ⟨b, r⟩ := p
    have hr := tryMatch_length hm
    exact congrArg (List.cons { idx := off, len := s.length - r.length, body := b })
      (scanAux_fuel_irrel r.length s.length (r.length + 1)
        (off + (s.length - r.length)) r (le_refl _) (by omega) (by omega))
  | none =>
    cases s with
    | nil => rfl
    | cons c s' => rfl

end ScanLemmas

/-- Hexadecimal digit (lower case), as used by `JSON.stringify` for
control-character escapes. -/
def hexDigit (n : Nat) : Char :=
  if n < 10 then Char.ofNat (48 + n) else Char.ofNat (87 + n)

/-- Model of `JSON.stringify` escaping of one character inside a string literal. -/
def jsonEscapeChar (c : Char) : List Char :=
  if c = '"' then ['\\', '"']
  else if c = '\\' then ['\\', '\\']
  else if c = '\n' then ['\\', 'n']
  else if c = '\r' then ['\\', 'r']
  else if c = '\t' then ['\\', 't']
  else if c = '\x08' then ['\\', 'b']
  else if c = '\x0c' then ['\\', 'f']
  else if c.toNat < 32 then
    ['\\', 'u', '0', '0', hexDigit (c.toNat / 16), hexDigit (c.toNat % 16)]
  else [c]

/-- Model of `JSON.stringify` of a single string. -/
def jsonQuote (s : List Char) : List Char :=
  '"' :: (s.map jsonEscapeChar).flatten ++ ['"']

/-- Model of `JSON.stringify` of an array of strings, as used by both extraction
functions to package the list of diagrams. -/
def jsonStringifyArr (ds : List (List Char)) : List Char :=
  '[' :: (List.intercalate [','] (ds.map jsonQuote)) ++ [']']

/-- Number of line breaks in a character list, recognising "\r\n", lone
"\r" and lone "\n" as single breaks — the line splitting VS Code's
`TextDocument` uses. -/
def lineBreakCount : List Char → Nat
  | [] => 0
  | '\r' :: '\n' :: rest => lineBreakCount rest + 1
  | '\r' :: rest => lineBreakCount rest + 1
  | '\n' :: rest => lineBreakCount rest + 1
  | _ :: rest => lineBreakCount rest

/-- Model of `document.positionAt(offset).line`: the number of line breaks before
the offset. -/
def lineOf (t : List Char) (offset : Nat) : Nat :=
  lineBreakCount (t.take offset)

/-- Whether the given (0-based) line number falls within the line span of
a match, from the line of its opening fence to the line of its closing
fence, as computed by `_extractMermaidCodeAtLine`. -/
def spanContainsLine (t : List Char) (m : RMatch) (line : Nat) : Bool :=
  lineOf t m.idx ≤ line && line ≤ lineOf t (m.idx + m.len)

/-- Model of `_extractMermaidCode` (extension.ts lines 410-455 / previewPanel.ts
lines 240-285): run the global regex over the document text; if there is
no match return null; otherwise trim every capture, keep the non-empty
ones, return null if none survives and the JSON-encoded array otherwise.
The Lean embedding returns `none` for null and the JSON text as a
character list. -/
def extractMermaidCode (t : List Char) : Option (List Char) :=
  let ms := scanAllFrom 0 t
  if ms.length = 0 then none
  else
    let diagrams := (ms.map (fun m => jsTrim m.body)).filter
      (fun code => code.length > 0)
    if diagrams.length = 0 then none
    else some (jsonStringifyArr diagrams)

/-- The loop body of `_extractMermaidCodeAtLine`: walk the matches in
order; if the requested line falls in a match's line span and the trimmed
capture is non-empty, return the singleton JSON array; otherwise keep
looking. -/
def extractAtLineFind (t : List Char) (line : Nat) :
    List RMatch → Option (List Char)
  | [] => none
  | m :: ms =>
    if spanContainsLine t m line then
      let diagramCode := jsTrim m.body
      if diagramCode.length > 0 then some (jsonStringifyArr [diagramCode])
      else extractAtLineFind t line ms
    else extractAtLineFind t line ms

/-- Model of `_extractMermaidCodeAtLine` (extension.ts lines 457-477 /
previewPanel.ts lines 287-307). -/
def extractMermaidCodeAtLine (t : List Char) (line : Nat) :
    Option (List Char) :=
  extractAtLineFind t line (scanAllFrom 0 t)

section SanityChecks

example :
    extractMermaidCode (mermaidOpen ++ ['\n', 'a', '\n'] ++ fence) =
      some (jsonStringifyArr [['a']]) := by decide

example : extractMermaidCode ['h', 'i'] = none := by decide

example :
    extractMermaidCode (mermaidOpen ++ ['\n', '\n'] ++ fence) = none := by
  decide

example :
    extractMermaidCodeAtLine (mermaidOpen ++ ['\n', 'a', '\n'] ++ fence) 1 =
      some (jsonStringifyArr [['a']]) := by decide

example :
    extractMermaidCodeAtLine (mermaidOpen ++ ['\n', 'a', '\n'] ++ fence) 5 =
      none := by decide

end SanityChecks

theorem tryClose_suffix {s r : List Char} (h : tryClose s = some r) :
    r <:+ s := by
  unfold tryClose at h
  split at h
  next r1 h1 =>
    injection h with h
    subst h
    exact ⟨_, (dropLit_eq_some.mp h1).symm⟩
  next h1 =>
    split at h
    next r2 h2 =>
      injection h with h
      subst h
      exact ⟨_, (dropLit_eq_some.mp h2).symm⟩
    next h2 =>
      exact ⟨_, (dropLit_eq_some.mp h).symm⟩

theorem matchBody_suffix {s : List Char} :
    ∀ {b r : List Char}, matchBody s = some (b, r) → r <:+ s := by
  induction s with
  | nil =>
    intro b r h
    simp [matchBody, show tryClose [] = none from rfl] at h
  | cons c s' ih =>
    intro b r h
    simp only [matchBody] at h
    cases hc : tryClose (c :: s') with
    | some rc =>
      rw [hc] at h
      have hb : b = [] := by
        injection h with h
        exact (congrArg Prod.fst h).symm
      have hr2 : r = rc := by
        injection h with h
        exact (congrArg Prod.snd h).symm
      subst hr2
      exact tryClose_suffix hc
    | none =>
      rw [hc] at h
      cases hm : matchBody s' with
      | none => rw [hm] at h; simp at h
      | some p =>
        rw [hm] at h
        simp only [Option.map_some, Option.some.injEq] at h
        obtain ⟨p1, p2⟩ := p
        cases h
        exact (ih hm).trans (List.suffix_cons c s')

theorem tryMatch_suffix {s b r : List Char} (h : tryMatch s = some (b, r)) :
    r <:+ s := by
  unfold tryMatch at h
  split at h
  · exact absurd h (by simp)
  next r1 h1 =>
    have h1s : r1 <:+ s := ⟨mermaidOpen, (dropLit_eq_some.mp h1).symm⟩
    have h2s : r1.dropWhile fenceSpace <:+ r1 := List.dropWhile_suffix fenceSpace
    split at h
    next r3 heq =>
      have h3 : r3 <:+ r1.dropWhile fenceSpace := by
        rw [heq]
        exact ⟨['\r', '\n'], rfl⟩
      exact (((matchBody_suffix h).trans h3).trans h2s).trans h1s
    next hno tail heq =>
      have h3' : tail <:+ r1.dropWhile fenceSpace := by
        rw [heq]
        exact ⟨['\n'], rfl⟩
      exact (((matchBody_suffix h).trans h3').trans h2s).trans h1s
    next => exact absurd h (by simp)

theorem drop_of_suffix {s r : List Char} (h : r <:+ s) :
    s.drop (s.length - r.length) = r := by
  obtain ⟨u, rfl⟩ := h
  have hlen : (u ++ r).length - r.length = u.length := by
    rw [List.length_append]
    omega
  rw [hlen, List.drop_left]

theorem scanAllFrom_matches_aux :
    ∀ (n : Nat) (s : List Char) (off : Nat) (t : List Char),
      s.length ≤ n → t.drop off = s → off + s.length = t.length →
      ∀ m ∈ scanAllFrom off s,
        m.idx + m.len ≤ t.length ∧
        tryMatch (t.drop m.idx) = some (m.body, t.drop (m.idx + m.len)) := by
  intro n
  induction n with
  | zero =>
    intro s off t hn hdrop hlen m hm
    have hs : s = [] := by
      cases s with
      | nil => rfl
      | cons a b => simp at hn
    subst hs
    rw [show scanAllFrom off [] = [] from rfl] at hm
    simp at hm
  | succ n ih =>
    intro s off t hn hdrop hlen m hm
    rw [scanAllFrom_eq] at hm
    cases hmt : tryMatch s with
    | some p =>
      obtain ⟨b, r⟩ := p
      rw [hmt] at hm
      have hr := tryMatch_length hmt
      have hrs : r <:+ s := tryMatch_suffix hmt
      have hdropr : t.drop (off + (s.length - r.length)) = r := by
        rw [← List.drop_drop, hdrop]
        exact drop_of_suffix hrs
      simp only [List.mem_cons] at hm
      rcases hm with rfl | hm
      · constructor
        · show off + (s.length - r.length) ≤ t.length
          omega
        · show tryMatch (t.drop off) =
            some (b, t.drop (off + (s.length - r.length)))
          rw [hdrop, hmt, hdropr]
      · exact ih r (off + (s.length - r.length)) t (by omega) hdropr
          (by omega) m hm
    | none =>
      rw [hmt] at hm
      cases s with
      | nil => simp at hm
      | cons c s' =>
        have hdrop' : t.drop (off + 1) = s' := by
          rw [← List.drop_drop, hdrop]
          rfl
        have hlen' : (off + 1) + s'.length = t.length := by
          simp only [List.length_cons] at hlen
          omega
        have hn' : s'.length ≤ n := by
          simp only [List.length_cons] at hn
          omega
        exact ih s' (off + 1) t hn' hdrop' hlen' m hm

/-- Every match reported by the global scan is a real anchored match of
the block pattern located in the text: the pattern matches at `idx`, the
capture is the reported body, and the remainder of the text after the
match starts at `idx + len`. -/
theorem scanAllFrom_located (t : List Char) :
    ∀ m ∈ scanAllFrom 0 t, m.idx + m.len ≤ t.length ∧
      tryMatch (t.drop m.idx) = some (m.body, t.drop (m.idx + m.len)) :=
  scanAllFrom_matches_aux t.length t 0 t le_rfl rfl (by simp)

/-- C1: for every document text, `_extractMermaidCode` returns the
JSON-encoded array of the (trimmed) bodies of all fenced mermaid blocks in
document order, keeping only bodies that are non-empty after trimming, and
returns null exactly when no fenced block exists or every block's trimmed
body is empty.  Each of the scanned blocks is a real anchored match of the
fenced-block pattern located in the text at its reported index. -/
theorem extractMermaidCode_characterisation (t : List Char) :
    (extractMermaidCode t =
      if (((scanAllFrom 0 t).map (fun m => jsTrim m.body)).filter
            (fun code => code.length > 0)).length = 0
      then none
      else some (jsonStringifyArr
        (((scanAllFrom 0 t).map (fun m => jsTrim m.body)).filter
          (fun code => code.length > 0))))
    ∧ (extractMermaidCode t = none ↔
        scanAllFrom 0 t = [] ∨ ∀ m ∈ scanAllFrom 0 t, jsTrim m.body = [])
    ∧ (∀ m ∈ scanAllFrom 0 t, m.idx + m.len ≤ t.length ∧
        tryMatch (t.drop m.idx) = some (m.body, t.drop (m.idx + m.len))) := by
  have hAB : (extractMermaidCode t =
      if (((scanAllFrom 0 t).map (fun m => jsTrim m.body)).filter
            (fun code => code.length > 0)).length = 0
      then none
      else some (jsonStringifyArr
        (((scanAllFrom 0 t).map (fun m => jsTrim m.body)).filter
          (fun code => code.length > 0))))
      ∧ (extractMermaidCode t = none ↔
          scanAllFrom 0 t = [] ∨ ∀ m ∈ scanAllFrom 0 t, jsTrim m.body = []) := by
    unfold extractMermaidCode
    cases hs : scanAllFrom 0 t with
    | nil =>
      simp
    | cons m ms =>
      simp only [List.length_cons, Nat.succ_ne_zero, if_false]
      constructor
      · trivial
      · constructor
        · intro h
          split at h
          · right
            next hemp =>
              intro x hx
              have hfil : ((m :: ms).map (fun m => jsTrim m.body)).filter
                  (fun code => code.length > 0) = [] :=
                List.length_eq_zero.mp hemp
              rw [List.filter_eq_nil_iff] at hfil
              have := hfil (jsTrim x.body) (List.mem_map_of_mem _ hx)
              simpa using this
          · simp at h
        · intro h
          rcases h with h | h
          · exact absurd h (by simp)
          · have hfil : ((m :: ms).map (fun m => jsTrim m.body)).filter
                (fun code => code.length > 0) = [] := by
              rw [List.filter_eq_nil_iff]
              intro a ha
              rw [List.mem_map] at ha
              obtain ⟨x, hx, rfl⟩ := ha
              simp [h x hx]
            rw [hfil]
            simp
  exact ⟨hAB.1, hAB.2, scanAllFrom_located t⟩

theorem extractAtLineFind_spec (t : List Char) (line : Nat) :
    ∀ ms : List RMatch,
      (∀ s, extractAtLineFind t line ms = some s →
        ∃ m ∈ ms, spanContainsLine t m line = true ∧
          (jsTrim m.body).length > 0 ∧ s = jsonStringifyArr [jsTrim m.body])
      ∧ (extractAtLineFind t line ms = none ↔
          ∀ m ∈ ms, spanContainsLine t m line = true → jsTrim m.body = []) := by
  intro ms
  induction ms with
  | nil => simp [extractAtLineFind]
  | cons m rest ih =>
    by_cases hspan : spanContainsLine t m line = true
    · by_cases hlen : (jsTrim m.body).length > 0
      · constructor
        · intro s hsome
          refine ⟨m, List.mem_cons_self m rest, hspan, hlen, ?_⟩
          simp only [extractAtLineFind, if_pos hspan, if_pos hlen,
            Option.some.injEq] at hsome
          exact hsome.symm
        · constructor
          · intro hnone
            simp [extractAtLineFind, if_pos hspan, if_pos hlen] at hnone
          · intro hall
            have := hall m (List.mem_cons_self m rest) hspan
            rw [this] at hlen
            simp at hlen
      · have hstep : extractAtLineFind t line (m :: rest) =
            extractAtLineFind t line rest := by
          simp [extractAtLineFind, if_pos hspan, if_neg hlen]
        constructor
        · intro s hsome
          rw [hstep] at hsome
          obtain ⟨x, hx, h1, h2, h3⟩ := ih.1 s hsome
          exact ⟨x, List.mem_cons_of_mem m hx, h1, h2, h3⟩
        · rw [hstep, ih.2]
          constructor
          · intro hall x hx hsp
            rcases List.mem_cons.mp hx with rfl | hx'
            · have : (jsTrim x.body).length = 0 := by omega
              exact List.length_eq_zero.mp this
            · exact hall x hx' hsp
          · intro hall x hx hsp
            exact hall x (List.mem_cons_of_mem m hx) hsp
    · have hstep : extractAtLineFind t line (m :: rest) =
          extractAtLineFind t line rest := by
        simp [extractAtLineFind, if_neg hspan]
      constructor
      · intro s hsome
        rw [hstep] at hsome
        obtain ⟨x, hx, h1, h2, h3⟩ := ih.1 s hsome
        exact ⟨x, List.mem_cons_of_mem m hx, h1, h2, h3⟩
      · rw [hstep, ih.2]
        constructor
        · intro hall x hx hsp
          rcases List.mem_cons.mp hx with rfl | hx'
          · exact absurd hsp hspan
          · exact hall x hx' hsp
        · intro hall x hx hsp
          exact hall x (List.mem_cons_of_mem m hx) hsp

/-- C6: for every document text and line number,
`_extractMermaidCodeAtLine` returns a JSON-encoded singleton array holding
the trimmed body of a fenced mermaid block whose line span (opening fence
line to closing fence line, inclusive) contains the given line and whose
trimmed body is non-empty, and returns null exactly when no such block
contains the line. -/
theorem extractMermaidCodeAtLine_characterisation (t : List Char) (line : Nat) :
    (∀ s, extractMermaidCodeAtLine t line = some s →
      ∃ m ∈ scanAllFrom 0 t, spanContainsLine t m line = true ∧
        (jsTrim m.body).length > 0 ∧ s = jsonStringifyArr [jsTrim m.body])
    ∧ (extractMermaidCodeAtLine t line = none ↔
        ∀ m ∈ scanAllFrom 0 t, spanContainsLine t m line = true →
          jsTrim m.body = []) :=
  extractAtLineFind_spec t line (scanAllFrom 0 t)

/-- C6 witness: on the concrete document "```mermaid\na\n```", line 1 lies
inside the single block and the extraction returns its body. -/
theorem extractMermaidCodeAtLine_witness :
    ∃ m ∈ scanAllFrom 0 (mermaidOpen ++ ['\n', 'a', '\n'] ++ fence),
      spanContainsLine (mermaidOpen ++ ['\n', 'a', '\n'] ++ fence) m 1 = true ∧
      (jsTrim m.body).length > 0 ∧
      jsonStringifyArr [['a']] = jsonStringifyArr [jsTrim m.body] :=
  (extractMermaidCodeAtLine_characterisation
    (mermaidOpen ++ ['\n', 'a', '\n'] ++ fence) 1).1
    (jsonStringifyArr [['a']]) (by decide)

section BlockShape

@[simp] theorem backtick_ne_nl : ¬ (backtick = '\n') := by decide

@[simp] theorem nl_ne_backtick : ¬ ('\n' = backtick) := by decide

@[simp] theorem backtick_ne_cr : ¬ (backtick = '\r') := by decide

@[simp] theorem cr_ne_backtick : ¬ ('\r' = backtick) := by decide

@[simp] theorem cr_ne_nl : ¬ ('\r' = '\n') := by decide

@[simp] theorem nl_ne_cr : ¬ ('\n' = '\r') := by decide

theorem trimEnd_nil : trimEnd [] = [] := rfl

theorem trimEnd_cons (a : Char) (x : List Char) :
    trimEnd (a :: x) =
      if trimEnd x = [] then (if jsSpace a then [] else [a])
      else a :: trimEnd x := by
  unfold trimEnd
  rw [List.reverse_cons, List.dropWhile_append]
  by_cases h : x.reverse.dropWhile jsSpace = []
  · rw [h]
    simp only [List.isEmpty_nil, if_true, List.reverse_nil, List.nil_eq,
      if_pos rfl]
    by_cases ha : jsSpace a
    · simp [List.dropWhile_cons, ha]
    · simp [List.dropWhile_cons, ha]
  · have hne : (x.reverse.dropWhile jsSpace).isEmpty = false := by
      simpa [List.isEmpty_iff] using h
    rw [hne]
    simp only [Bool.false_eq_true, if_false, List.reverse_append,
      List.reverse_cons, List.reverse_nil, List.nil_append,
      List.singleton_append]
    have : ¬ ((x.reverse.dropWhile jsSpace).reverse = []) := by
      simpa using h
    rw [if_neg this]

/-- When a list of the shape `b ++ optNl ++ fence` begins with the fence
itself, either everything before the fence is empty, or `b` ends in a
backtick, or `b` contains the whole fence. -/
theorem fence_eq_case {optNl : List Char}
    (hopt : optNl = [] ∨ optNl = ['\n'] ∨ optNl = ['\r', '\n']) :
    ∀ b r : List Char, b ++ optNl ++ fence = fence ++ r →
      (b = [] ∧ optNl = [] ∧ r = []) ∨ ([backtick] <:+ b) ∨ (fence <:+: b) := by
  intro b r h
  match b with
  | [] =>
    rcases hopt with rfl | rfl | rfl
    · simp only [List.nil_append] at h
      simp only [fence] at h
      simp only [List.cons_append, List.cons.injEq, List.nil_append] at h
      obtain ⟨-, -, -, h⟩ := h
      exact Or.inl ⟨rfl, rfl, h.symm⟩
    · simp only [List.nil_append, fence, List.cons_append, List.nil_append,
        List.cons.injEq] at h
      exact absurd h.1 nl_ne_backtick
    · simp only [List.nil_append, fence, List.cons_append, List.nil_append,
        List.cons.injEq] at h
      exact absurd h.1 cr_ne_backtick
  | [x] =>
    simp only [fence, List.cons_append, List.singleton_append,
      List.append_assoc, List.cons.injEq] at h
    obtain ⟨rfl, -⟩ := h
    exact Or.inr (Or.inl (List.suffix_refl [backtick]))
  | x :: y :: b2 =>
    simp only [fence, List.cons_append, List.append_assoc,
      List.cons.injEq] at h
    obtain ⟨rfl, rfl, h⟩ := h
    match b2 with
    | [] =>
      exact Or.inr (Or.inl ⟨[backtick], rfl⟩)
    | z :: b3 =>
      simp only [List.cons_append, List.cons.injEq] at h
      obtain ⟨rfl, -⟩ := h
      exact Or.inr (Or.inr ⟨[], b3, rfl⟩)

end BlockShape

/-- If the closing pattern matches at the very start of
`body ++ optNl ++ fence` for a body that neither contains the fence nor
ends in a backtick, then the whole text is consumed and the body consists
of line-break characters only. -/
theorem close_shape {optNl : List Char}
    (hopt : optNl = [] ∨ optNl = ['\n'] ∨ optNl = ['\r', '\n'])
    (body : List Char) (hf : ¬ (fence <:+: body))
    (hl : ¬ ([backtick] <:+ body)) {r : List Char}
    (h : tryClose (body ++ optNl ++ fence) = some r) :
    r = [] ∧ trimEnd body = [] := by
  unfold tryClose at h
  split at h
  next r1 h1 =>
    injection h with h
    subst h
    have heq : body ++ optNl ++ fence = '\r' :: ('\n' :: (fence ++ r1)) := by
      simpa [List.cons_append] using dropLit_eq_some.mp h1
    match body with
    | [] =>
      rcases hopt with rfl | rfl | rfl
      · simp [fence] at heq
      · simp at heq
      · simp only [List.nil_append, List.cons_append, List.cons.injEq,
          true_and] at heq
        rw [List.self_eq_append_right] at heq
        exact ⟨heq, rfl⟩
    | c1 :: b1 =>
      simp only [List.cons_append, List.cons.injEq] at heq
      obtain ⟨rfl, heq⟩ := heq
      match b1 with
      | [] =>
        rcases hopt with rfl | rfl | rfl
        · simp [fence] at heq
        · simp only [List.nil_append, List.cons_append, List.cons.injEq,
            true_and] at heq
          rw [List.self_eq_append_right] at heq
          exact ⟨heq, by decide⟩
        · simp at heq
      | c2 :: b2 =>
        simp only [List.cons_append, List.cons.injEq] at heq
        obtain ⟨rfl, heq⟩ := heq
        rcases fence_eq_case hopt b2 r1 heq with ⟨rfl, rfl, rfl⟩ | hsuf | hinf
        · exact ⟨rfl, by decide⟩
        · exact absurd
            ((hsuf.trans (List.suffix_cons '\n' b2)).trans
              (List.suffix_cons '\r' ('\n' :: b2))) hl
        · exact absurd (List.infix_cons (List.infix_cons hinf)) hf
  next h1 =>
    split at h
    next r2 h2 =>
      injection h with h
      subst h
      have heq : body ++ optNl ++ fence = '\n' :: (fence ++ r2) := by
        simpa [List.cons_append] using dropLit_eq_some.mp h2
      match body with
      | [] =>
        rcases hopt with rfl | rfl | rfl
        · simp [fence] at heq
        · simp only [List.nil_append, List.cons_append, List.cons.injEq,
            true_and] at heq
          rw [List.self_eq_append_right] at heq
          exact ⟨heq, rfl⟩
        · simp at heq
      | c1 :: b1 =>
        simp only [List.cons_append, List.cons.injEq] at heq
        obtain ⟨rfl, heq⟩ := heq
        rcases fence_eq_case hopt b1 r2 heq with ⟨rfl, rfl, rfl⟩ | hsuf | hinf
        · exact ⟨rfl, by decide⟩
        · exact absurd (hsuf.trans (List.suffix_cons '\n' b1)) hl
        · exact absurd (List.infix_cons hinf) hf
    next h2 =>
      have heq : body ++ optNl ++ fence = fence ++ r :=
        dropLit_eq_some.mp h
      rcases fence_eq_case hopt body r heq with ⟨rfl, rfl, rfl⟩ | hsuf | hinf
      · exact ⟨rfl, rfl⟩
      · exact absurd hsuf hl
      · exact absurd hinf hf

/-- The lazy capture over a well-formed block body: for a body that
neither contains the closing fence nor ends in a backtick, the capture
agrees with the body up to trailing line-break characters, and the match
consumes the whole of `body ++ optNl ++ fence`. -/
theorem matchBody_block {optNl : List Char}
    (hopt : optNl = [] ∨ optNl = ['\n'] ∨ optNl = ['\r', '\n']) :
    ∀ body : List Char, ¬ (fence <:+: body) → ¬ ([backtick] <:+ body) →
      ∃ c, matchBody (body ++ optNl ++ fence) = some (c, []) ∧
        trimEnd c = trimEnd body := by
  intro body
  induction body with
  | nil =>
    intro _ _
    rcases hopt with rfl | rfl | rfl
    · exact ⟨[], by decide, rfl⟩
    · exact ⟨[], by decide, rfl⟩
    · exact ⟨[], by decide, rfl⟩
  | cons a b ih =>
    intro hf hl
    have hf' : ¬ (fence <:+: b) := fun hx => hf (List.infix_cons hx)
    have hl' : ¬ ([backtick] <:+ b) :=
      fun hx => hl (hx.trans (List.suffix_cons a b))
    have hstep : (a :: b) ++ optNl ++ fence = a :: (b ++ optNl ++ fence) := by
      simp
    cases hc : tryClose (a :: (b ++ optNl ++ fence)) with
    | some r =>
      have hcs : tryClose ((a :: b) ++ optNl ++ fence) = some r := by
        rw [hstep]; exact hc
      obtain ⟨hr, htr⟩ := close_shape hopt (a :: b) hf hl hcs
      refine ⟨[], ?_, ?_⟩
      · rw [hstep]
        show matchBody (a :: (b ++ optNl ++ fence)) = some ([], [])
        simp only [matchBody, hc]
        rw [hr]
      · rw [htr]
        rfl
    | none =>
      obtain ⟨c', hc', htr'⟩ := ih hf' hl'
      refine ⟨a :: c', ?_, ?_⟩
      · rw [hstep]
        show matchBody (a :: (b ++ optNl ++ fence)) = some (a :: c', [])
        simp only [matchBody, hc, hc', Option.map_some]
        rfl
      · rw [trimEnd_cons, trimEnd_cons, htr']

theorem dropLit_append (p s : List Char) : dropLit p (p ++ s) = some s :=
  dropLit_eq_some.mpr rfl

theorem dropWhile_append_of_all {p : Char → Bool} :
    ∀ ws l : List Char, (∀ c ∈ ws, p c = true) →
      (ws ++ l).dropWhile p = l.dropWhile p := by
  intro ws l hws
  induction ws with
  | nil => simp
  | cons c cs ih =>
    have hc : p c = true := hws c (List.mem_cons_self c cs)
    simp only [List.cons_append, List.dropWhile_cons, hc, if_true]
    exact ih (fun x hx => hws x (List.mem_cons_of_mem c hx))

/-- A fenced mermaid block assembled from its parts: the opener
"```mermaid", a run of trailing whitespace, the mandatory newline, the
diagram body, an optional newline, and the closing fence. -/
def mkBlock (ws nl optNl body : List Char) : List Char :=
  mermaidOpen ++ (ws ++ (nl ++ (body ++ (optNl ++ fence))))

theorem tryMatch_open (s : List Char) :
    tryMatch (mermaidOpen ++ s) =
      match s.dropWhile fenceSpace with
      | '\r' :: '\n' :: r3 => matchBody r3
      | '\n' :: r3 => matchBody r3
      | _ => none := by
  unfold tryMatch
  rw [dropLit_append]

theorem tryMatch_mkBlock {ws nl optNl body : List Char}
    (hws : ∀ c ∈ ws, c = ' ' ∨ c = '\t')
    (hnl : nl = ['\n'] ∨ nl = ['\r', '\n'])
    (hopt : optNl = [] ∨ optNl = ['\n'] ∨ optNl = ['\r', '\n'])
    (hf : ¬ (fence <:+: body)) (hl : ¬ ([backtick] <:+ body)) :
    ∃ c, tryMatch (mkBlock ws nl optNl body) = some (c, []) ∧
      trimEnd c = trimEnd body := by
  have hws' : ∀ c ∈ ws, fenceSpace c = true := by
    intro c hc
    rcases hws c hc with rfl | rfl <;> decide
  obtain ⟨c, hmb, htr⟩ := matchBody_block hopt body hf hl
  have hmb' : matchBody (body ++ (optNl ++ fence)) = some (c, []) := by
    rw [← List.append_assoc]; exact hmb
  refine ⟨c, ?_, htr⟩
  unfold mkBlock
  rw [tryMatch_open]
  rcases hnl with rfl | rfl
  · rw [show (ws ++ (['\n'] ++ (body ++ (optNl ++ fence)))).dropWhile
          fenceSpace = '\n' :: (body ++ (optNl ++ fence)) by
      rw [dropWhile_append_of_all ws _ hws']
      simp [List.dropWhile_cons, fenceSpace, jsSpace]]
    exact hmb'
  · rw [show (ws ++ (['\r', '\n'] ++ (body ++ (optNl ++ fence)))).dropWhile
          fenceSpace = '\r' :: '\n' :: (body ++ (optNl ++ fence)) by
      rw [dropWhile_append_of_all ws _ hws']
      simp [List.dropWhile_cons, fenceSpace, jsSpace]]
    exact hmb'

/-- Extraction over a single well-formed fenced block: the result is the
trimmed body (as a singleton JSON array), or null when the body trims to
nothing — independently of the whitespace after the opener, the opener's
newline style and the optional newline before the closing fence. -/
theorem extract_mkBlock {ws nl optNl body : List Char}
    (hws : ∀ c ∈ ws, c = ' ' ∨ c = '\t')
    (hnl : nl = ['\n'] ∨ nl = ['\r', '\n'])
    (hopt : optNl = [] ∨ optNl = ['\n'] ∨ optNl = ['\r', '\n'])
    (hf : ¬ (fence <:+: body)) (hl : ¬ ([backtick] <:+ body)) :
    extractMermaidCode (mkBlock ws nl optNl body) =
      if (jsTrim body).length = 0 then none
      else some (jsonStringifyArr [jsTrim body]) := by
  obtain ⟨c, htm, htr⟩ := tryMatch_mkBlock hws hnl hopt hf hl
  have hscan : scanAllFrom 0 (mkBlock ws nl optNl body) =
      [{ idx := 0, len := (mkBlock ws nl optNl body).length, body := c }] := by
    rw [scanAllFrom_eq, htm]
    simp [scanAllFrom, scanAux, show tryMatch [] = none from rfl]
  have hjs : jsTrim c = jsTrim body := by
    unfold jsTrim
    rw [htr]
  unfold extractMermaidCode
  rw [hscan]
  by_cases hb : (jsTrim body).length = 0
  · simp [List.filter, hjs, hb]
  · simp [List.filter, hjs, hb, Nat.pos_of_ne_zero hb]

/-- C2 counterexample: extraction is NOT insensitive for every diagram
body.  A body ending in backticks extracts differently with and without a
trailing newline before the closing fence ("x``" vs "x"), and a body
written with Windows line endings keeps its internal "\r" characters, so
the extracted trimmed strings differ from the Unix-newline variant. -/
theorem extraction_newline_insensitivity_counterexample :
    extractMermaidCode (mkBlock [] ['\n'] ['\n'] ['x', backtick, backtick]) =
        some (jsonStringifyArr [['x', backtick, backtick]]) ∧
    extractMermaidCode (mkBlock [] ['\n'] [] ['x', backtick, backtick]) =
        some (jsonStringifyArr [['x']]) ∧
    jsonStringifyArr [['x', backtick, backtick]] ≠ jsonStringifyArr [['x']] ∧
    extractMermaidCode (mkBlock [] ['\n'] ['\n'] ['a', '\n', 'b']) =
        some (jsonStringifyArr [['a', '\n', 'b']]) ∧
    extractMermaidCode
        (mkBlock [] ['\r', '\n'] ['\r', '\n'] ['a', '\r', '\n', 'b']) =
        some (jsonStringifyArr [['a', '\r', '\n', 'b']]) ∧
    jsonStringifyArr [['a', '\n', 'b']] ≠
      jsonStringifyArr [['a', '\r', '\n', 'b']] := by
  refine ⟨by decide, by decide, by decide, by decide, by decide, by decide⟩

/-- C2 (amended): for every diagram body that neither contains the
closing fence "```" nor ends in a backtick, a block written with Unix or
Windows newlines at the fences, with optional spaces or tabs after the
"```mermaid" opener, and with or without a trailing newline before the
closing fence, yields the same extracted trimmed diagram string, namely
the trimmed body (internal line endings of the body are preserved
verbatim). -/
theorem extraction_fence_newline_insensitive
    {ws₁ ws₂ nl₁ nl₂ opt₁ opt₂ body : List Char}
    (hws₁ : ∀ c ∈ ws₁, c = ' ' ∨ c = '\t')
    (hws₂ : ∀ c ∈ ws₂, c = ' ' ∨ c = '\t')
    (hnl₁ : nl₁ = ['\n'] ∨ nl₁ = ['\r', '\n'])
    (hnl₂ : nl₂ = ['\n'] ∨ nl₂ = ['\r', '\n'])
    (hopt₁ : opt₁ = [] ∨ opt₁ = ['\n'] ∨ opt₁ = ['\r', '\n'])
    (hopt₂ : opt₂ = [] ∨ opt₂ = ['\n'] ∨ opt₂ = ['\r', '\n'])
    (hf : ¬ (fence <:+: body)) (hl : ¬ ([backtick] <:+ body)) :
    extractMermaidCode (mkBlock ws₁ nl₁ opt₁ body) =
      extractMermaidCode (mkBlock ws₂ nl₂ opt₂ body) ∧
    extractMermaidCode (mkBlock ws₁ nl₁ opt₁ body) =
      (if (jsTrim body).length = 0 then none
       else some (jsonStringifyArr [jsTrim body])) := by
  refine ⟨?_, extract_mkBlock hws₁ hnl₁ hopt₁ hf hl⟩
  rw [extract_mkBlock hws₁ hnl₁ hopt₁ hf hl,
    extract_mkBlock hws₂ hnl₂ hopt₂ hf hl]

/-- C2 witness: a concrete body "a" wrapped with a space after the opener
and no trailing newline extracts identically to the Windows-newline
variant with a trailing newline. -/
theorem extraction_fence_newline_insensitive_witness :
    (extractMermaidCode (mkBlock [' '] ['\n'] [] ['a']) =
      extractMermaidCode (mkBlock [] ['\r', '\n'] ['\r', '\n'] ['a']) ∧
    extractMermaidCode (mkBlock [' '] ['\n'] [] ['a']) =
      (if (jsTrim ['a']).length = 0 then none
       else some (jsonStringifyArr [jsTrim ['a']]))) :=
  extraction_fence_newline_insensitive (by decide) (by decide)
    (Or.inl rfl) (Or.inr rfl) (Or.inl rfl) (Or.inr (Or.inr rfl))
    (by decide) (by decide)

/-
  Theme resolution (`_resolveTheme`, extension.ts lines 479-499).
  Strings are `List Char`; an absent optional argument is `none`, and
  JavaScript's falsiness of the empty string is modelled explicitly
  (`overrideTheme || configuredTheme` and `!overrideTheme`).
-/

/-- The `previewAppearance` setting. -/
inductive PreviewAppearance
  | matchVSCode
  | light
  | dark
deriving DecidableEq, Repr

/-- VS Code's `ColorThemeKind`. -/
inductive ColorThemeKind
  | Light
  | Dark
  | HighContrast
  | HighContrastLight
deriving DecidableEq, Repr

/-- The extension's configuration as read through
`workspace.getConfiguration('mermaidPreview')`, after defaults are
applied (except `refreshDelay`, whose default is applied at the call
site in `updateContent`). -/
structure Config where
  useVSCodeTheme : Bool
  theme : List Char
  previewAppearance : PreviewAppearance
  refreshDelay : Option Nat
deriving DecidableEq, Repr

/-- The mermaid theme "default". -/
def themeDefault : List Char := ['d', 'e', 'f', 'a', 'u', 'l', 't']

/-- The mermaid theme "dark". -/
def themeDark : List Char := ['d', 'a', 'r', 'k']

/-- JavaScript falsiness of an optional string: `undefined` and the empty
string are falsy. -/
def strFalsy : Option (List Char) → Bool
  | none => true
  | some t => t.isEmpty

/-- Model of `_resolveTheme(overrideTheme?)`: start from `overrideTheme ||
configuredTheme`; when `useVSCodeTheme` is set and no (truthy) override
is given, the appearance decides — 'light' forces "default", 'dark'
forces "dark", and 'matchVSCode' consults the host editor's active color
theme. -/
def resolveTheme (cfg : Config) (activeColorTheme : ColorThemeKind)
    (overrideTheme : Option (List Char)) : List Char × PreviewAppearance :=
  let theme :=
    match overrideTheme with
    | some t => if t.isEmpty then cfg.theme else t
    | none => cfg.theme
  let theme :=
    if cfg.useVSCodeTheme && strFalsy overrideTheme then
      match cfg.previewAppearance with
      | PreviewAppearance.light => themeDefault
      | PreviewAppearance.dark => themeDark
      | PreviewAppearance.matchVSCode =>
        if activeColorTheme = ColorThemeKind.Dark then themeDark
        else themeDefault
    else theme
  (theme, cfg.previewAppearance)

/-- C3 counterexample: the claim "whenever useVSCodeTheme is false the
resolved theme equals the explicit override, if one is passed" fails for
the empty-string override, which JavaScript's `||` treats as absent: with
useVSCodeTheme false and configured theme "dark", passing the override ""
resolves to "dark", not to "". -/
theorem resolveTheme_counterexample :
    (resolveTheme
        { useVSCodeTheme := false, theme := themeDark,
          previewAppearance := PreviewAppearance.light, refreshDelay := none }
        ColorThemeKind.Light (some [])).1 = themeDark ∧
    themeDark ≠ ([] : List Char) := by
  refine ⟨by decide, by decide⟩

/-- C3 (amended): theme resolution is decoupled from the host editor's
color theme.  Whenever `useVSCodeTheme` is false the resolved theme equals
the configured theme, or the explicit override when a non-empty override
is passed; and two resolutions that differ only in the host editor's
active color theme produce the same result unless `useVSCodeTheme` is
true, the override is absent or empty, and `previewAppearance` is
'matchVSCode' — only in that case can the host color theme influence the
result. -/
theorem resolveTheme_decoupled (cfg : Config) (k₁ k₂ : ColorThemeKind)
    (o : Option (List Char)) :
    (cfg.useVSCodeTheme = false →
      (∀ t, o = some t → t ≠ [] → (resolveTheme cfg k₁ o).1 = t) ∧
      ((o = none ∨ o = some []) → (resolveTheme cfg k₁ o).1 = cfg.theme)) ∧
    (¬(cfg.useVSCodeTheme = true ∧ (o = none ∨ o = some []) ∧
        cfg.previewAppearance = PreviewAppearance.matchVSCode) →
      resolveTheme cfg k₁ o = resolveTheme cfg k₂ o) := by
  constructor
  · intro hoff
    constructor
    · intro t hto hne
      subst hto
      have hne' : t.isEmpty = false := by
        cases t with
        | nil => exact absurd rfl hne
        | cons a b => rfl
      simp [resolveTheme, hoff, hne']
    · intro habs
      rcases habs with rfl | rfl
      · simp [resolveTheme, hoff]
      · simp [resolveTheme, hoff]
  · intro hni
    unfold resolveTheme
    by_cases hu : cfg.useVSCodeTheme
    · by_cases hfo : strFalsy o = true
      · have happ : cfg.previewAppearance ≠ PreviewAppearance.matchVSCode := by
          intro hm
          apply hni
          refine ⟨hu, ?_, hm⟩
          cases o with
          | none => exact Or.inl rfl
          | some t =>
            right
            cases t with
            | nil => rfl
            | cons a b => simp [strFalsy] at hfo
        simp only [hu, hfo, Bool.and_self, if_true, Bool.true_and]
        cases happ' : cfg.previewAppearance with
        | matchVSCode => exact absurd happ' happ
        | light => rfl
        | dark => rfl
      · have hfo' : strFalsy o = false := by
          cases hx : strFalsy o with
          | true => exact absurd hx hfo
          | false => rfl
        simp [hfo']
    · have hu' : cfg.useVSCodeTheme = false := by
        cases hx : cfg.useVSCodeTheme with
        | true => exact absurd hx hu
        | false => rfl
      simp [hu']

/-- C3 witness: with useVSCodeTheme false and configured theme "default",
the non-empty override "dark" wins, and swapping the host editor's color
theme between Light and Dark cannot change the resolution. -/
theorem resolveTheme_decoupled_witness :
    ((resolveTheme
        { useVSCodeTheme := false, theme := themeDefault,
          previewAppearance := PreviewAppearance.light, refreshDelay := none }
        ColorThemeKind.Light (some themeDark)).1 = themeDark) ∧
    (resolveTheme
        { useVSCodeTheme := false, theme := themeDefault,
          previewAppearance := PreviewAppearance.light, refreshDelay := none }
        ColorThemeKind.Light (some themeDark) =
      resolveTheme
        { useVSCodeTheme := false, theme := themeDefault,
          previewAppearance := PreviewAppearance.light, refreshDelay := none }
        ColorThemeKind.Dark (some themeDark)) := by
  constructor
  · exact ((resolveTheme_decoupled
      { useVSCodeTheme := false, theme := themeDefault,
        previewAppearance := PreviewAppearance.light, refreshDelay := none }
      ColorThemeKind.Light ColorThemeKind.Dark (some themeDark)).1
      rfl).1 themeDark rfl (by decide)
  · exact (resolveTheme_decoupled
      { useVSCodeTheme := false, theme := themeDefault,
        previewAppearance := PreviewAppearance.light, refreshDelay := none }
      ColorThemeKind.Light ColorThemeKind.Dark (some themeDark)).2
      (by simp)

/-
  Panel state machine (`MermaidPreviewPanel` in extension.ts).  The webview
  HTML is abstracted to the inputs that determine it: the error message tag
  for `_getErrorHtml`, or the JSON diagram payload, theme and appearance for
  `_getHtmlForWebview` (both are fixed, pure templates of those inputs).
  `setTimeout`/`clearTimeout` are modelled by a scheduler holding the set of
  live timers, so that a stale timer that was never cleared would remain
  observable.
-/

/-- Model of `PreviewMode` (extension.ts line 137). -/
inductive PreviewMode
  | all
  | single
deriving DecidableEq, Repr

/-- The error messages passed to `_getErrorHtml`. -/
inductive ErrMsg
  | noDocument
  | noDiagram
  | noDiagramAtPosition
deriving DecidableEq, Repr

/-- The webview HTML, abstracted to its determining inputs. -/
inductive Html
  | blank
  | error (msg : ErrMsg)
  | view (payload : List Char) (theme : List Char)
      (appearance : PreviewAppearance)
deriving DecidableEq, Repr

/-- The mutable fields of a `MermaidPreviewPanel`. -/
structure Panel where
  mode : PreviewMode
  singleLine : Option Nat
  currentDocument : Option (List Char)
  updateTimeout : Option Nat
  html : Html
deriving DecidableEq, Repr

/-- The host's timer table: a fresh-id counter and the list of live
timers (id, delay).  Each live timer will eventually fire `_render`
once unless cleared. -/
structure Sched where
  nextId : Nat
  live : List (Nat × Nat)
deriving DecidableEq, Repr

/-- The scheduler with no timer, as when a panel is constructed. -/
def sched0 : Sched := { nextId := 0, live := [] }

/-- Model of `setTimeout(callback, delay)`: registers a live timer and returns its
handle. -/
def schedSet (s : Sched) (delay : Nat) : Nat × Sched :=
  (s.nextId, { nextId := s.nextId + 1, live := s.live ++ [(s.nextId, delay)] })

/-- Model of `clearTimeout(handle)`: removes the timer if it is still live (a no-op
on an already-fired handle). -/
def schedClear (s : Sched) (id : Nat) : Sched :=
  { s with live := s.live.filter (fun x => !(x.1 = id)) }

/-- Which renderer `_render` dispatches to (extension.ts lines 279-285). -/
inductive RenderKind
  | single (line : Nat)
  | all
deriving DecidableEq, Repr

/-- The dispatch condition of `_render`: the single-diagram renderer
exactly when `_mode === 'single' && _singleLine !== undefined`. -/
def renderTarget (p : Panel) : RenderKind :=
  match p.mode, p.singleLine with
  | PreviewMode.single, some n => RenderKind.single n
  | _, _ => RenderKind.all

/-- Model of `_renderAll(overrideTheme?)` (extension.ts lines 370-389). -/
def renderAll (cfg : Config) (k : ColorThemeKind) (ov : Option (List Char))
    (p : Panel) : Panel :=
  match p.currentDocument with
  | none => { p with html := Html.error ErrMsg.noDocument }
  | some doc =>
    match extractMermaidCode doc with
    | none => { p with html := Html.error ErrMsg.noDiagram }
    | some code =>
      let r := resolveTheme cfg k ov
      { p with html := Html.view code r.1 r.2 }

/-- Model of `_renderSingle(lineNumber, overrideTheme?)` (extension.ts lines
391-408). -/
def renderSingle (cfg : Config) (k : ColorThemeKind) (line : Nat)
    (ov : Option (List Char)) (p : Panel) : Panel :=
  match p.currentDocument with
  | none => { p with html := Html.error ErrMsg.noDocument }
  | some doc =>
    match extractMermaidCodeAtLine doc line with
    | none => { p with html := Html.error ErrMsg.noDiagramAtPosition }
    | some code =>
      let r := resolveTheme cfg k ov
      { p with html := Html.view code r.1 r.2 }

/-- Model of `_render(overrideTheme?)` (extension.ts lines 279-285). -/
def render (cfg : Config) (k : ColorThemeKind) (ov : Option (List Char))
    (p : Panel) : Panel :=
  match renderTarget p with
  | RenderKind.single n => renderSingle cfg k n ov p
  | RenderKind.all => renderAll cfg k ov p

/-- Model of `_setMode(mode, lineNumber?)` (extension.ts lines 262-265). -/
def setMode (m : PreviewMode) (lineNumber : Option Nat) (p : Panel) : Panel :=
  { p with mode := m, singleLine := lineNumber }

/-- Model of `_switchToAllMode(document)` (extension.ts lines 267-271). -/
def switchToAllMode (cfg : Config) (k : ColorThemeKind) (doc : List Char)
    (p : Panel) : Panel :=
  render cfg k none
    (setMode PreviewMode.all none { p with currentDocument := some doc })

/-- Model of `_switchToSingleMode(document, lineNumber)` (extension.ts lines
273-277). -/
def switchToSingleMode (cfg : Config) (k : ColorThemeKind) (doc : List Char)
    (lineNumber : Nat) (p : Panel) : Panel :=
  renderSingle cfg k lineNumber none
    (setMode PreviewMode.single (some lineNumber)
      { p with currentDocument := some doc })

/-- The panel constructor (extension.ts lines 209-260): store the fields,
then render the initial content. -/
def constructPanel (cfg : Config) (k : ColorThemeKind) (doc : List Char)
    (mode : PreviewMode) (singleLine : Option Nat) : Panel :=
  render cfg k none
    { mode := mode, singleLine := singleLine, currentDocument := some doc,
      updateTimeout := none, html := Html.blank }

/-- Model of `updateContent(document)` (extension.ts lines 287-307): record the
document; in any mode other than 'all' stop; otherwise clear a pending
timer and schedule `_render` after the configured `refreshDelay`
(default 500). -/
def updateContent (cfg : Config) (doc : List Char) (p : Panel) (s : Sched) :
    Panel × Sched :=
  let p := { p with currentDocument := some doc }
  if p.mode ≠ PreviewMode.all then (p, s)
  else
    let s :=
      match p.updateTimeout with
      | some id => schedClear s id
      | none => s
    let delay := cfg.refreshDelay.getD 500
    let is := schedSet s delay
    ({ p with updateTimeout := some is.1 }, is.2)

/-- Model of `updateContentAtLine(document, lineNumber)` (extension.ts lines
309-311). -/
def updateContentAtLine (cfg : Config) (k : ColorThemeKind) (doc : List Char)
    (lineNumber : Nat) (p : Panel) : Panel :=
  switchToSingleMode cfg k doc lineNumber p

/-- Model of `refreshAppearance()` (extension.ts lines 1315-1321): re-render unless
there is no current document. -/
def refreshAppearance (cfg : Config) (k : ColorThemeKind) (p : Panel) :
    Panel :=
  match p.currentDocument with
  | none => p
  | some _ => render cfg k none p

/-- A debounce-timer firing: the timer must be live; it is consumed and
`_render` runs.  (`_updateTimeout` keeps the stale handle, as in the
code.) -/
def fireTimer (cfg : Config) (k : ColorThemeKind) (id : Nat)
    (p : Panel) (s : Sched) : Panel × Sched :=
  (render cfg k none p, schedClear s id)

/-- The reachable (panel, scheduler) states of a preview panel under the
operations the extension performs on it. -/
inductive Reach : Panel × Sched → Prop
  | initAll (cfg : Config) (k : ColorThemeKind) (doc : List Char) :
      Reach (constructPanel cfg k doc PreviewMode.all none, sched0)
  | initSingle (cfg : Config) (k : ColorThemeKind) (doc : List Char) (n : Nat) :
      Reach (constructPanel cfg k doc PreviewMode.single (some n), sched0)
  | updateC (cfg : Config) (doc : List Char) {ps : Panel × Sched} :
      Reach ps → Reach (updateContent cfg doc ps.1 ps.2)
  | updateAtLine (cfg : Config) (k : ColorThemeKind) (doc : List Char)
      (n : Nat) {ps : Panel × Sched} :
      Reach ps → Reach (updateContentAtLine cfg k doc n ps.1, ps.2)
  | switchAll (cfg : Config) (k : ColorThemeKind) (doc : List Char)
      {ps : Panel × Sched} :
      Reach ps → Reach (switchToAllMode cfg k doc ps.1, ps.2)
  | themeChange (cfg : Config) (k : ColorThemeKind) (th : List Char)
      {ps : Panel × Sched} :
      Reach ps → Reach (render cfg k (some th) ps.1, ps.2)
  | refreshApp (cfg : Config) (k : ColorThemeKind) {ps : Panel × Sched} :
      Reach ps → Reach (refreshAppearance cfg k ps.1, ps.2)
  | fire (cfg : Config) (k : ColorThemeKind) (id d : Nat) {ps : Panel × Sched} :
      Reach ps → (id, d) ∈ ps.2.live → Reach (fireTimer cfg k id ps.1 ps.2)

theorem renderAll_fields (cfg : Config) (k : ColorThemeKind)
    (ov : Option (List Char)) (p : Panel) :
    (renderAll cfg k ov p).mode = p.mode ∧
    (renderAll cfg k ov p).singleLine = p.singleLine ∧
    (renderAll cfg k ov p).updateTimeout = p.updateTimeout ∧
    (renderAll cfg k ov p).currentDocument = p.currentDocument := by
  cases hd : p.currentDocument with
  | none => simp [renderAll, hd]
  | some doc =>
    cases he : extractMermaidCode doc with
    | none => simp [renderAll, hd, he]
    | some code => simp [renderAll, hd, he]

theorem renderSingle_fields (cfg : Config) (k : ColorThemeKind) (line : Nat)
    (ov : Option (List Char)) (p : Panel) :
    (renderSingle cfg k line ov p).mode = p.mode ∧
    (renderSingle cfg k line ov p).singleLine = p.singleLine ∧
    (renderSingle cfg k line ov p).updateTimeout = p.updateTimeout ∧
    (renderSingle cfg k line ov p).currentDocument = p.currentDocument := by
  cases hd : p.currentDocument with
  | none => simp [renderSingle, hd]
  | some doc =>
    cases he : extractMermaidCodeAtLine doc line with
    | none => simp [renderSingle, hd, he]
    | some code => simp [renderSingle, hd, he]

theorem render_fields (cfg : Config) (k : ColorThemeKind)
    (ov : Option (List Char)) (p : Panel) :
    (render cfg k ov p).mode = p.mode ∧
    (render cfg k ov p).singleLine = p.singleLine ∧
    (render cfg k ov p).updateTimeout = p.updateTimeout ∧
    (render cfg k ov p).currentDocument = p.currentDocument := by
  unfold render
  cases renderTarget p with
  | single n => exact renderSingle_fields cfg k n ov p
  | all => exact renderAll_fields cfg k ov p

theorem updateContent_fields (cfg : Config) (doc : List Char) (p : Panel)
    (s : Sched) :
    (updateContent cfg doc p s).1.mode = p.mode ∧
    (updateContent cfg doc p s).1.singleLine = p.singleLine ∧
    (updateContent cfg doc p s).1.html = p.html := by
  unfold updateContent
  by_cases hm : p.mode = PreviewMode.all
  · simp [hm]
  · simp [hm]

theorem refreshAppearance_fields (cfg : Config) (k : ColorThemeKind)
    (p : Panel) :
    (refreshAppearance cfg k p).mode = p.mode ∧
    (refreshAppearance cfg k p).singleLine = p.singleLine := by
  unfold refreshAppearance
  cases hd : p.currentDocument with
  | none => exact ⟨rfl, rfl⟩
  | some doc =>
    exact ⟨(render_fields cfg k none p).1, (render_fields cfg k none p).2.1⟩

theorem constructPanel_fields (cfg : Config) (k : ColorThemeKind)
    (doc : List Char) (mode : PreviewMode) (sl : Option Nat) :
    (constructPanel cfg k doc mode sl).mode = mode ∧
    (constructPanel cfg k doc mode sl).singleLine = sl := by
  unfold constructPanel
  exact ⟨(render_fields cfg k none _).1, (render_fields cfg k none _).2.1⟩

/-- C5: the preview panel's mode states are mutually exclusive and
consistent: `_mode` is one of 'all' and 'single'; in every reachable
state, mode 'single' comes with a defined `_singleLine`; switching to
'all' mode clears `_singleLine`; and `_render` dispatches to the
single-diagram renderer exactly when the mode is 'single' and a line is
defined, and to the all-diagrams renderer otherwise. -/
theorem modeStateMachine :
    (∀ p : Panel, p.mode = PreviewMode.all ∨ p.mode = PreviewMode.single)
    ∧ (∀ ps : Panel × Sched, Reach ps → ps.1.mode = PreviewMode.single →
        ∃ n, ps.1.singleLine = some n)
    ∧ (∀ (cfg : Config) (k : ColorThemeKind) (doc : List Char) (p : Panel),
        (switchToAllMode cfg k doc p).mode = PreviewMode.all ∧
        (switchToAllMode cfg k doc p).singleLine = none)
    ∧ (∀ (p : Panel) (n : Nat), renderTarget p = RenderKind.single n ↔
        (p.mode = PreviewMode.single ∧ p.singleLine = some n))
    ∧ (∀ p : Panel, renderTarget p = RenderKind.all ↔
        ¬(p.mode = PreviewMode.single ∧ (p.singleLine).isSome = true)) := by
  refine ⟨?_, ?_, ?_, ?_, ?_⟩
  · intro p
    cases h : p.mode with
    | all => exact Or.inl rfl
    | single => exact Or.inr rfl
  · intro ps hr
    induction hr with
    | initAll cfg k doc =>
      intro hm
      rw [(constructPanel_fields cfg k doc PreviewMode.all none).1] at hm
      exact absurd hm (by decide)
    | initSingle cfg k doc n =>
      intro _
      exact ⟨n, (constructPanel_fields cfg k doc PreviewMode.single (some n)).2⟩
    | updateC cfg doc hr ih =>
      rename_i ps'
      intro hm
      rw [(updateContent_fields cfg doc ps'.1 ps'.2).1] at hm
      obtain ⟨n, hn⟩ := ih hm
      exact ⟨n, by rw [(updateContent_fields cfg doc ps'.1 ps'.2).2.1]; exact hn⟩
    | updateAtLine cfg k doc n hr ih =>
      rename_i ps'
      intro _
      refine ⟨n, ?_⟩
      show (switchToSingleMode cfg k doc n ps'.1).singleLine = some n
      unfold switchToSingleMode
      rw [(renderSingle_fields cfg k n none _).2.1]
      rfl
    | switchAll cfg k doc hr ih =>
      rename_i ps'
      intro hm
      unfold switchToAllMode at hm
      rw [(render_fields cfg k none _).1] at hm
      simp [setMode] at hm
    | themeChange cfg k th hr ih =>
      rename_i ps'
      intro hm
      rw [(render_fields cfg k (some th) ps'.1).1] at hm
      obtain ⟨n, hn⟩ := ih hm
      exact ⟨n, by rw [(render_fields cfg k (some th) ps'.1).2.1]; exact hn⟩
    | refreshApp cfg k hr ih =>
      rename_i ps'
      intro hm
      rw [(refreshAppearance_fields cfg k ps'.1).1] at hm
      obtain ⟨n, hn⟩ := ih hm
      exact ⟨n, by rw [(refreshAppearance_fields cfg k ps'.1).2]; exact hn⟩
    | fire cfg k id d hr hmem ih =>
      rename_i ps'
      intro hm
      rw [show (fireTimer cfg k id ps'.1 ps'.2).1 = render cfg k none ps'.1
        from rfl, (render_fields cfg k none ps'.1).1] at hm
      obtain ⟨n, hn⟩ := ih hm
      refine ⟨n, ?_⟩
      rw [show (fireTimer cfg k id ps'.1 ps'.2).1 = render cfg k none ps'.1
        from rfl, (render_fields cfg k none ps'.1).2.1]
      exact hn
  · intro cfg k doc p
    unfold switchToAllMode
    exact ⟨(render_fields cfg k none _).1, (render_fields cfg k none _).2.1⟩
  · intro p n
    unfold renderTarget
    cases hm : p.mode with
    | all =>
      cases hs : p.singleLine <;> simp
    | single =>
      cases hs : p.singleLine with
      | none => simp
      | some m => simp [RenderKind.single.injEq]
  · intro p
    unfold renderTarget
    cases hm : p.mode with
    | all =>
      cases hs : p.singleLine <;> simp
    | single =>
      cases hs : p.singleLine with
      | none => simp
      | some m => simp

/-- A concrete panel in single mode at line 7, used by witnesses. -/
def panel7 : Panel :=
  { mode := PreviewMode.single, singleLine := some 7,
    currentDocument := none, updateTimeout := none, html := Html.blank }

/-- A concrete configuration used by witnesses. -/
def cfg0 : Config :=
  { useVSCodeTheme := false, theme := themeDefault,
    previewAppearance := PreviewAppearance.matchVSCode, refreshDelay := none }

/-- C5 witness: a freshly constructed single-diagram panel at line 7 is
reachable and carries a defined line, and the dispatch equivalence holds
at a concrete single-mode state. -/
theorem modeStateMachine_witness :
    (∃ n, (constructPanel cfg0 ColorThemeKind.Light ['x']
        PreviewMode.single (some 7), sched0).1.singleLine = some n) ∧
    (renderTarget panel7 = RenderKind.single 7 ↔
      (panel7.mode = PreviewMode.single ∧ panel7.singleLine = some 7)) := by
  constructor
  · exact modeStateMachine.2.1 _
      (Reach.initSingle cfg0 ColorThemeKind.Light ['x'] 7) rfl
  · exact modeStateMachine.2.2.2.1 panel7 7

/-- The debounce invariant: at most one live timer, and every live timer
is the one recorded in `_updateTimeout`. -/
def SchedInv (p : Panel) (s : Sched) : Prop :=
  s.live.length ≤ 1 ∧ ∀ x ∈ s.live, p.updateTimeout = some x.1

theorem cleared_live_nil (p : Panel) (s : Sched) (hinv : SchedInv p s) :
    (match p.updateTimeout with
      | some id => schedClear s id
      | none => s).live = [] := by
  cases ht : p.updateTimeout with
  | none =>
    simp only
    rw [List.eq_nil_iff_forall_not_mem]
    intro x hx
    have := hinv.2 x hx
    rw [ht] at this
    exact Option.noConfusion this
  | some id =>
    simp only [schedClear]
    rw [List.filter_eq_nil_iff]
    intro x hx
    have := hinv.2 x hx
    rw [ht] at this
    injection this with h
    simp [h]

theorem updateContent_all_eq (cfg : Config) (doc : List Char) (p : Panel)
    (s : Sched) (hm : p.mode = PreviewMode.all) (hinv : SchedInv p s) :
    updateContent cfg doc p s =
      ({ p with
          currentDocument := some doc,
          updateTimeout := some s.nextId },
       { nextId := s.nextId + 1,
         live := [(s.nextId, cfg.refreshDelay.getD 500)] }) := by
  have hnx : (match p.updateTimeout with
      | some id => schedClear s id
      | none => s).nextId = s.nextId := by
    cases p.updateTimeout with
    | none => rfl
    | some id => rfl
  have hlv := cleared_live_nil p s hinv
  unfold updateContent
  rw [if_neg (by simp [hm])]
  simp only [schedSet, hnx, hlv, List.nil_append]

theorem updateContent_inv (cfg : Config) (doc : List Char) (p : Panel)
    (s : Sched) (hinv : SchedInv p s) :
    SchedInv (updateContent cfg doc p s).1 (updateContent cfg doc p s).2 := by
  by_cases hm : p.mode = PreviewMode.all
  · rw [updateContent_all_eq cfg doc p s hm hinv]
    refine ⟨by simp, ?_⟩
    intro x hx
    simp only [List.mem_singleton] at hx
    subst hx
    rfl
  · have : updateContent cfg doc p s = ({ p with currentDocument := some doc }, s) := by
      unfold updateContent
      rw [if_pos (by simp [hm])]
    rw [this]
    exact ⟨hinv.1, fun x hx => hinv.2 x hx⟩

theorem updateContent_foldl_inv (cfg : Config) :
    ∀ (docs : List (List Char)) (ps : Panel × Sched),
      SchedInv ps.1 ps.2 →
      SchedInv
        (docs.foldl (fun ps d => updateContent cfg d ps.1 ps.2) ps).1
        (docs.foldl (fun ps d => updateContent cfg d ps.1 ps.2) ps).2 := by
  intro docs
  induction docs with
  | nil => intro ps h; exact h
  | cons d ds ih =>
    intro ps h
    exact ih (updateContent cfg d ps.1 ps.2) (updateContent_inv cfg d ps.1 ps.2 h)

/-- C4: document edits are debounced.  From any state satisfying the
debounce invariant, a call to `updateContent` in all-diagrams mode cancels
the pending timer before scheduling a new one, leaving exactly one live
timer with the configured `refreshDelay` (default 500); the invariant is
preserved, and after a burst of further `updateContent` calls at most one
render remains pending. -/
theorem updateContent_debounces (cfg : Config) (doc : List Char) (p : Panel)
    (s : Sched) (hinv : SchedInv p s) :
    (p.mode = PreviewMode.all →
      ∃ id, (updateContent cfg doc p s).1.updateTimeout = some id ∧
        (updateContent cfg doc p s).2.live =
          [(id, cfg.refreshDelay.getD 500)])
    ∧ SchedInv (updateContent cfg doc p s).1 (updateContent cfg doc p s).2
    ∧ ∀ docs : List (List Char),
        ((docs.foldl (fun ps d => updateContent cfg d ps.1 ps.2)
          (updateContent cfg doc p s)).2.live.length ≤ 1) := by
  refine ⟨?_, updateContent_inv cfg doc p s hinv, ?_⟩
  · intro hm
    rw [updateContent_all_eq cfg doc p s hm hinv]
    exact ⟨s.nextId, rfl, rfl⟩
  · intro docs
    exact (updateContent_foldl_inv cfg docs (updateContent cfg doc p s)
      (updateContent_inv cfg doc p s hinv)).1

/-- A concrete all-mode panel with no pending timer. -/
def panelAll0 : Panel :=
  { mode := PreviewMode.all, singleLine := none, currentDocument := none,
    updateTimeout := none, html := Html.blank }

/-- C4 witness: from the fresh all-mode panel, one edit leaves exactly one
pending timer with delay 500. -/
theorem updateContent_debounces_witness :
    ∃ id, (updateContent cfg0 ['x'] panelAll0 sched0).1.updateTimeout =
        some id ∧
      (updateContent cfg0 ['x'] panelAll0 sched0).2.live =
        [(id, cfg0.refreshDelay.getD 500)] :=
  (updateContent_debounces cfg0 ['x'] panelAll0 sched0
    ⟨by decide, by simp [sched0]⟩).1 rfl

/-- C10: a single-diagram panel ignores document edits: when the mode is
'single', `updateContent` records the new document in `_currentDocument`
and changes nothing else — no timer is scheduled, and the mode, line,
pending-timer handle and webview HTML are untouched. -/
theorem updateContent_single_frame (cfg : Config) (doc : List Char)
    (p : Panel) (s : Sched) (h : p.mode = PreviewMode.single) :
    updateContent cfg doc p s = ({ p with currentDocument := some doc }, s) := by
  unfold updateContent
  rw [if_pos (by simp [h])]

/-- C10 witness: updating a concrete single-mode panel only swaps the
stored document. -/
theorem updateContent_single_frame_witness :
    updateContent cfg0 ['y'] panel7 sched0 =
      ({ panel7 with currentDocument := some ['y'] }, sched0) :=
  updateContent_single_frame cfg0 ['y'] panel7 sched0 rfl

/-
  Export handling (`_handleExportDiagram`, extension.ts lines 333-368).
  The save dialog's outcome and the file write's outcome are inputs; the
  function's observable effects — the dialog options it shows, the file it
  writes, and the messages it displays — are returned as a record.
-/

/-- The literal "svg". -/
def fmtSvg : List Char := ['s', 'v', 'g']

/-- The literal "png". -/
def fmtPng : List Char := ['p', 'n', 'g']

/-- The literal "jpg". -/
def fmtJpg : List Char := ['j', 'p', 'g']

/-- The literal "jpeg". -/
def fmtJpeg : List Char := ['j', 'p', 'e', 'g']

/-- The filter labels of the save dialog. -/
def lblSvg : List Char :=
  ['S', 'V', 'G', ' ', 'I', 'm', 'a', 'g', 'e']

/-- The label "PNG Image". -/
def lblPng : List Char :=
  ['P', 'N', 'G', ' ', 'I', 'm', 'a', 'g', 'e']

/-- The label "JPEG Image". -/
def lblJpeg : List Char :=
  ['J', 'P', 'E', 'G', ' ', 'I', 'm', 'a', 'g', 'e']

/-- The file filters offered for each export format (the `filters` object
built at the top of `_handleExportDiagram`). -/
def exportFilters (format : List Char) : List (List Char × List (List Char)) :=
  if format = fmtSvg then [(lblSvg, [fmtSvg])]
  else if format = fmtPng then [(lblPng, [fmtPng])]
  else if format = fmtJpg then [(lblJpeg, [fmtJpg, fmtJpeg])]
  else []

/-- The literal "mermaid-diagram-". -/
def exportFileBase : List Char :=
  ['m', 'e', 'r', 'm', 'a', 'i', 'd', '-', 'd', 'i', 'a', 'g', 'r', 'a',
   'm', '-']

/-- The default file name `mermaid-diagram-{index+1}.{format}` offered in
the save dialog. -/
def exportDefaultName (index : Nat) (format : List Char) : List Char :=
  exportFileBase ++ Nat.toDigits 10 (index + 1) ++ ['.'] ++ format

/-- The save-dialog options passed to `window.showSaveDialog`. -/
structure SaveDialogOptions where
  defaultName : List Char
  filters : List (List Char × List (List Char))
deriving DecidableEq, Repr

/-- The literal "Diagram exported to ". -/
def exportedMsgHead : List Char :=
  ['D', 'i', 'a', 'g', 'r', 'a', 'm', ' ', 'e', 'x', 'p', 'o', 'r', 't',
   'e', 'd', ' ', 't', 'o', ' ']

/-- The literal "Failed to export diagram: ". -/
def exportFailedHead : List Char :=
  ['F', 'a', 'i', 'l', 'e', 'd', ' ', 't', 'o', ' ', 'e', 'x', 'p', 'o',
   'r', 't', ' ', 'd', 'i', 'a', 'g', 'r', 'a', 'm', ':', ' ']

/-- The observable effects of one `_handleExportDiagram` run. -/
structure ExportEffects where
  dialog : SaveDialogOptions
  written : Option (List Char)
  infoMessage : Option (List Char)
  errorMessage : Option (List Char)
deriving DecidableEq, Repr

/-- Model of `_handleExportDiagram(data, format, index)`: build the filters and the
default name, show the save dialog; on cancel, return with no write and
no message; otherwise write the file — showing an information message on
success and an error message if the write throws. -/
def handleExportDiagram (format : List Char) (index : Nat)
    (dialogResult : Option (List Char))
    (writeResult : Except (List Char) Unit) : ExportEffects :=
  let dialog : SaveDialogOptions :=
    { defaultName := exportDefaultName index format,
      filters := exportFilters format }
  match dialogResult with
  | none =>
    { dialog := dialog, written := none, infoMessage := none,
      errorMessage := none }
  | some uri =>
    match writeResult with
    | Except.ok _ =>
      { dialog := dialog, written := some uri,
        infoMessage := some (exportedMsgHead ++ uri), errorMessage := none }
    | Except.error e =>
      { dialog := dialog, written := none, infoMessage := none,
        errorMessage := some (exportFailedHead ++ e) }

/-- C7: export offers format-matching filters and the default name
`mermaid-diagram-{index+1}.{format}`; a cancelled dialog writes no file
and shows no message; a failing write shows an error message instead of
an information message and records no written file. -/
theorem handleExportDiagram_spec (format : List Char) (index : Nat)
    (dialogResult : Option (List Char))
    (writeResult : Except (List Char) Unit) :
    ((handleExportDiagram format index dialogResult writeResult).dialog.defaultName =
      exportFileBase ++ Nat.toDigits 10 (index + 1) ++ ['.'] ++ format)
    ∧ (format = fmtSvg →
       (handleExportDiagram format index dialogResult writeResult).dialog.filters =
         [(lblSvg, [fmtSvg])])
    ∧ (format = fmtPng →
       (handleExportDiagram format index dialogResult writeResult).dialog.filters =
         [(lblPng, [fmtPng])])
    ∧ (format = fmtJpg →
       (handleExportDiagram format index dialogResult writeResult).dialog.filters =
         [(lblJpeg, [fmtJpg, fmtJpeg])])
    ∧ (dialogResult = none →
       (handleExportDiagram format index dialogResult writeResult).written = none ∧
       (handleExportDiagram format index dialogResult writeResult).infoMessage = none ∧
       (handleExportDiagram format index dialogResult writeResult).errorMessage = none)
    ∧ (∀ uri e, dialogResult = some uri → writeResult = Except.error e →
       (handleExportDiagram format index dialogResult writeResult).written = none ∧
       (handleExportDiagram format index dialogResult writeResult).infoMessage = none ∧
       (handleExportDiagram format index dialogResult writeResult).errorMessage =
         some (exportFailedHead ++ e)) := by
  refine ⟨?_, ?_, ?_, ?_, ?_, ?_⟩
  · cases dialogResult with
    | none => rfl
    | some uri => cases writeResult with
      | ok u => rfl
      | error e => rfl
  · intro hf
    subst hf
    cases dialogResult with
    | none => rfl
    | some uri => cases writeResult with
      | ok u => rfl
      | error e => rfl
  · intro hf
    subst hf
    cases dialogResult with
    | none => rfl
    | some uri => cases writeResult with
      | ok u => rfl
      | error e => rfl
  · intro hf
    subst hf
    cases dialogResult with
    | none => rfl
    | some uri => cases writeResult with
      | ok u => rfl
      | error e => rfl
  · intro hd
    subst hd
    exact ⟨rfl, rfl, rfl⟩
  · intro uri e hd hw
    subst hd
    subst hw
    exact ⟨rfl, rfl, rfl⟩

/-- C7 witness: a concrete failing jpg export shows the jpg/jpeg filters,
the default name `mermaid-diagram-3.jpg`, writes nothing and reports the
error; a concrete cancelled svg export has no effect at all. -/
theorem handleExportDiagram_witness :
    ((handleExportDiagram fmtJpg 2 (some ['a'])
        (Except.error ['E'])).dialog.defaultName =
      exportFileBase ++ Nat.toDigits 10 3 ++ ['.'] ++ fmtJpg) ∧
    ((handleExportDiagram fmtJpg 2 (some ['a'])
        (Except.error ['E'])).dialog.filters =
      [(lblJpeg, [fmtJpg, fmtJpeg])]) ∧
    ((handleExportDiagram fmtJpg 2 (some ['a'])
        (Except.error ['E'])).written = none) ∧
    ((handleExportDiagram fmtJpg 2 (some ['a'])
        (Except.error ['E'])).infoMessage = none) ∧
    ((handleExportDiagram fmtJpg 2 (some ['a'])
        (Except.error ['E'])).errorMessage =
      some (exportFailedHead ++ ['E'])) ∧
    ((handleExportDiagram fmtSvg 0 none (Except.ok ())).written = none ∧
     (handleExportDiagram fmtSvg 0 none (Except.ok ())).infoMessage = none ∧
     (handleExportDiagram fmtSvg 0 none (Except.ok ())).errorMessage = none) := by
  have h := handleExportDiagram_spec fmtJpg 2 (some ['a']) (Except.error ['E'])
  have h2 := handleExportDiagram_spec fmtSvg 0 none (Except.ok ())
  obtain ⟨hw, hi, he⟩ := h.2.2.2.2.2 ['a'] ['E'] rfl rfl
  exact ⟨h.1, h.2.2.2.1 rfl, hw, hi, he, h2.2.2.2.2.1 rfl⟩

/-
  Webview zoom state (the script generated by `_getHtmlForWebview` in
  extension.ts, lines 644-660 and 700-710).  JavaScript numbers are
  modelled as exact rationals; the zoom arithmetic uses only +0.1, -0.1,
  `Math.min`/`Math.max` clamps and the constant 1.0.
-/

/-- The zoom-changing events the webview script reacts to. -/
inductive ZoomEvent
  | zoomIn
  | zoomOut
  | zoomReset
  | wheel (ctrlKey : Bool) (deltaY : ℚ)

/-- Model of `zoomIn()`: `currentZoom = Math.min(currentZoom + 0.1, 5.0)`. -/
def zoomInF (z : ℚ) : ℚ := min (z + 1 / 10) 5

/-- Model of `zoomOut()`: `currentZoom = Math.max(currentZoom - 0.1, 0.5)`. -/
def zoomOutF (z : ℚ) : ℚ := max (z - 1 / 10) (1 / 2)

/-- One event's effect on `currentZoom`: `zoomReset` restores 1.0, and
`handleWheel` only zooms when the control key is held, in on `deltaY < 0`
and out otherwise. -/
def zoomStep (z : ℚ) : ZoomEvent → ℚ
  | ZoomEvent.zoomIn => zoomInF z
  | ZoomEvent.zoomOut => zoomOutF z
  | ZoomEvent.zoomReset => 1
  | ZoomEvent.wheel ctrlKey deltaY =>
    if ctrlKey then (if deltaY < 0 then zoomInF z else zoomOutF z) else z

theorem zoomStep_bounds (z : ℚ) (hz1 : 1 / 2 ≤ z) (hz2 : z ≤ 5) :
    ∀ e : ZoomEvent, 1 / 2 ≤ zoomStep z e ∧ zoomStep z e ≤ 5 := by
  have hin : 1 / 2 ≤ zoomInF z ∧ zoomInF z ≤ 5 := by
    constructor
    · apply le_min _ (by norm_num)
      linarith
    · exact min_le_right _ _
  have hout : 1 / 2 ≤ zoomOutF z ∧ zoomOutF z ≤ 5 := by
    constructor
    · exact le_max_right _ _
    · apply max_le _ (by norm_num)
      linarith
  intro e
  cases e with
  | zoomIn => exact hin
  | zoomOut => exact hout
  | zoomReset => exact ⟨by norm_num [zoomStep], by norm_num [zoomStep]⟩
  | wheel ctrlKey deltaY =>
    by_cases hc : ctrlKey
    · by_cases hd : deltaY < 0
      · simpa [zoomStep, hc, hd] using hin
      · simpa [zoomStep, hc, hd] using hout
    · simp only [zoomStep, if_neg hc]
      exact ⟨hz1, hz2⟩

/-- C9: the webview zoom level stays within [0.5, 5.0]: starting from the
initial value 1.0, every value reachable through any sequence of zoomIn,
zoomOut, zoomReset and ctrl+wheel events satisfies
0.5 <= currentZoom <= 5.0. -/
theorem currentZoom_bounded (evs : List ZoomEvent) :
    1 / 2 ≤ evs.foldl zoomStep 1 ∧ evs.foldl zoomStep 1 ≤ 5 := by
  suffices h : ∀ z : ℚ, 1 / 2 ≤ z → z ≤ 5 →
      1 / 2 ≤ evs.foldl zoomStep z ∧ evs.foldl zoomStep z ≤ 5 by
    exact h 1 (by norm_num) (by norm_num)
  induction evs with
  | nil => intro z h1 h2; exact ⟨h1, h2⟩
  | cons e es ih =>
    intro z h1 h2
    obtain ⟨h1', h2'⟩ := zoomStep_bounds z h1 h2 e
    exact ih (zoomStep z e) h1' h2'

/-
  Purity of the extraction methods (C8): the bodies of
  `_extractMermaidCode` and `_extractMermaidCodeAtLine` read the document
  text and write to no panel field and to no document; their method-level
  embeddings therefore take the panel state and return it unchanged, with
  a result depending only on the document text (and line).
-/

/-- Model of `_extractMermaidCode` as a method: the receiver panel is an input, and
the (unchanged) panel is returned along with the result. -/
def extractMermaidCodeM (p : Panel) (doc : List Char) :
    Option (List Char) × Panel :=
  (extractMermaidCode doc, p)

/-- Model of `_extractMermaidCodeAtLine` as a method. -/
def extractMermaidCodeAtLineM (p : Panel) (doc : List Char) (line : Nat) :
    Option (List Char) × Panel :=
  (extractMermaidCodeAtLine doc line, p)

/-- C8: fenced-block extraction is pure: both methods leave the panel
state (mode, single line, current document, webview HTML, pending timer)
unchanged, and their results are functions of the document text and line
only — two calls with equal document inputs return equal results
regardless of panel state. -/
theorem extraction_pure (p q : Panel) (doc : List Char) (line : Nat) :
    (extractMermaidCodeM p doc).2 = p ∧
    (extractMermaidCodeAtLineM p doc line).2 = p ∧
    (extractMermaidCodeM p doc).1 = (extractMermaidCodeM q doc).1 ∧
    (extractMermaidCodeAtLineM p doc line).1 =
      (extractMermaidCodeAtLineM q doc line).1 :=
  ⟨rfl, rfl, rfl, rfl⟩
